import Mathlib

/-!
# Blame Store — shallow embedding of `src/gitBlameProvider.ts`

This file embeds the GitLens blame provider (parse / cache / slice core) in
Lean 4 and proves the specification claims about it.

Modelling conventions:
* A JavaScript `Map` (insertion-ordered, unique keys) is an association list
  `List (String × α)` manipulated only through `mapGet` / `mapSet` /
  `mapDelete` / `mapHas`, which mirror `Map.get` / `Map.set` /
  `Map.delete` / `Map.has`.
* A `Promise` that eventually resolves with `v` or rejects with error `e` is
  the value `Except String v` (single-threaded cooperative model: `.then`
  is `Except.map`, and the provider has no `.catch`, so rejections
  propagate).
* The external collaborator `gitBlame` (module `./git`, an external
  collaborator per the spec) composed with the `blameMatcher` regular
  expression sweep is a function `String → Except String (List RegexMatch)`:
  for a file name it either fails (retrieval failure) or yields the list of
  successful matches of the attribution-line pattern over the raw text, in
  match order.
-/

namespace GitLens

/-- One successful match of the attribution-line pattern `blameMatcher`
(`^([\^0-9a-fA-F]\x7b8\x7d)\s([\S]*)\s+([0-9\S]+)\s\((.*)\s(<timestamp>)\s+([0-9]+)\)(.*)$`,
flags `gm`).  The fields hold the capture groups `m[1]` … `m[7]`; the two
numeric groups are carried as their parsed values `parseInt(m[3], 10)` and
`parseInt(m[6], 10)` (both capture digit runs in well-formed output). -/
structure RegexMatch where
  /-- `m[1]`: the hash, 8 hex-or-caret characters. -/
  sha : String
  /-- `m[2]`: the source file path, a run of non-space characters. -/
  fileName : String
  /-- `parseInt(m[3], 10)`: the 1-based original line number. -/
  originalLineNum : Nat
  /-- `m[4]`: the author free text. -/
  author : String
  /-- `m[5]`: the timestamp text `YYYY-MM-DD HH:MM:SS ±HHHH`. -/
  dateStr : String
  /-- `parseInt(m[6], 10)`: the 1-based current line number. -/
  lineNum : Nat
  /-- `m[7]`: the rest of the line (discarded by the parser). -/
  code : String
deriving DecidableEq

/-- `IGitBlameCommit`.  The `Date` produced by `new Date(m[5])` (external
JavaScript date parsing) is represented by its source string. -/
structure IGitBlameCommit where
  sha : String
  fileName : String
  author : String
  date : String
deriving DecidableEq

/-- `IGitBlameLine`.  The line numbers are `parseInt(...) - 1`, so they are
integers (`-1` when a capture reads `0`). -/
structure IGitBlameLine where
  sha : String
  originalLine : Int
  line : Int
deriving DecidableEq

/-- `Map.get`: the value at the first (in a `Map`: only) binding of `k`. -/
def mapGet {α : Type} (m : List (String × α)) (k : String) : Option α :=
  match m with
  | [] => none
  | p :: rest => if p.1 = k then some p.2 else mapGet rest k

/-- `Map.has`. -/
def mapHas {α : Type} (m : List (String × α)) (k : String) : Bool :=
  m.any (fun p => p.1 = k)

/-- `Map.set`: update the binding in place if the key is present (a `Map`
keeps the original insertion position), otherwise append it. -/
def mapSet {α : Type} (m : List (String × α)) (k : String) (v : α) :
    List (String × α) :=
  match m with
  | [] => [(k, v)]
  | p :: rest => if p.1 = k then (k, v) :: rest else p :: mapSet rest k v

/-- `Map.delete`. -/
def mapDelete {α : Type} (m : List (String × α)) (k : String) :
    List (String × α) :=
  m.filter (fun p => p.1 != k)

/-- The commit map of a blame result.  The value type is
`Option IGitBlameCommit` because `getBlameForRange` stores the result of
`blame.commits.get(l.sha)`, which in JavaScript may be `undefined`. -/
abbrev CommitMap := List (String × Option IGitBlameCommit)

/-- `Map.get` on a commit map as JavaScript observes it: a missing key and a
stored `undefined` both read back as `undefined`. -/
def mapGetJS (m : CommitMap) (k : String) : Option IGitBlameCommit :=
  match mapGet m k with
  | some v => v
  | none => none

/-- `IGitBlame`: the parsed blame result for one file. -/
structure IGitBlame where
  commits : CommitMap
  lines : List IGitBlameLine
deriving DecidableEq

/-- The commit record built from a matched line inside `blameFile`:
`{ sha, fileName: m[2].trim(), author: m[4].trim(), date: new Date(m[5]) }`. -/
def commitOf (m : RegexMatch) : IGitBlameCommit :=
  { sha := m.sha
    fileName := m.fileName.trim
    author := m.author.trim
    date := m.dateStr }

/-- The line record pushed for a matched line inside `blameFile`:
`{ sha, originalLine: parseInt(m[3], 10) - 1, line: parseInt(m[6], 10) - 1 }`. -/
def lineOf (m : RegexMatch) : IGitBlameLine :=
  { sha := m.sha
    originalLine := (m.originalLineNum : Int) - 1
    line := (m.lineNum : Int) - 1 }

/-- The `while ((m = blameMatcher.exec(data)) != null)` loop of `blameFile`:
walk the matches in order, recording a commit for each hash not seen before
and pushing one line record per match. -/
def parseLoop : List RegexMatch → CommitMap → List IGitBlameLine →
    CommitMap × List IGitBlameLine
  | [], commits, lines => (commits, lines)
  | m :: rest, commits, lines =>
    let commits' :=
      if mapHas commits m.sha then commits
      else mapSet commits m.sha (some (commitOf m))
    parseLoop rest commits' (lines ++ [lineOf m])

/-- The parse phase of `blameFile` (the `.then(data => …)` continuation):
from the matches of the raw attribution text to `{ commits, lines }`. -/
def parseBlame (ms : List RegexMatch) : IGitBlame :=
  { commits := (parseLoop ms [] []).1
    lines := (parseLoop ms [] []).2 }

/-- A cached computation: a promise of a blame result (resolved or rejected;
pending promises are identified with their eventual outcome in this
single-threaded model). -/
abbrev BlamePromise := Except String IGitBlame

instance : DecidableEq BlamePromise := fun a b =>
  match a, b with
  | .ok x, .ok y =>
    if h : x = y then .isTrue (by rw [h]) else .isFalse (by simp [h])
  | .error x, .error y =>
    if h : x = y then .isTrue (by rw [h]) else .isFalse (by simp [h])
  | .ok _, .error _ => .isFalse (by simp)
  | .error _, .ok _ => .isFalse (by simp)

/-- The external collaborator: raw-attribution-text retrieval composed with
the `blameMatcher` sweep.  Failure is the retrieval failure of `gitBlame`. -/
abbrev GitCollaborator := String → Except String (List RegexMatch)

/-- The mutable state of a `GitBlameProvider`: the `_files` cache plus a log
of the collaborator invocations made so far (one entry per `gitBlame` call,
recording the file name), used to observe (non-)re-invocation. -/
structure ProviderState where
  files : List (String × BlamePromise)
  calls : List String
deriving DecidableEq

/-- `GitBlameProvider.blameFile`: return the cached computation if present;
otherwise invoke the collaborator, parse, cache the promise, and return it. -/
def blameFile (git : GitCollaborator) (s : ProviderState) (fileName : String) :
    BlamePromise × ProviderState :=
  match mapGet s.files fileName with
  | some blame => (blame, s)
  | none =>
    let blame : BlamePromise := (git fileName).map parseBlame
    (blame,
      { files := mapSet s.files fileName blame
        calls := s.calls ++ [fileName] })

/-- `GitBlameProvider._removeFile`, the cache invalidation triggered by the
`onDidCloseTextDocument` and `onDidChangeTextDocument` notifications wired in
the constructor: `this._files.delete(fileName)`. -/
def removeFile (s : ProviderState) (fileName : String) : ProviderState :=
  { s with files := mapDelete s.files fileName }

/-- A `vscode.Position` (external host type): line and character. -/
structure Position where
  line : Nat
  character : Nat
deriving DecidableEq

/-- A `vscode.Range` (external host type): start and end positions.  The
source field `end` is a reserved word in Lean and is rendered `endPos`. -/
structure Range where
  start : Position
  endPos : Position
deriving DecidableEq

/-- JavaScript `Array.prototype.slice(b, e)` for the non-negative indices
used here: the elements at indices `b, …, e - 1`, clamped to the array. -/
def arraySlice {α : Type} (xs : List α) (b e : Nat) : List α :=
  (xs.take e).drop b

/-- `lodash.uniqBy(lines, sha-key)` written as its accumulating loop: keep
each line whose hash was not kept before, in order. -/
def uniqByShaLoop : List IGitBlameLine → List IGitBlameLine →
    List IGitBlameLine
  | acc, [] => acc
  | acc, l :: rest =>
    uniqByShaLoop
      (if acc.any (fun x => x.sha = l.sha) then acc else acc ++ [l]) rest

/-- `lodash.uniqBy(lines, sha-key)`: deduplicate by hash, first occurrence
per hash wins, order preserved. -/
def uniqBySha (xs : List IGitBlameLine) : List IGitBlameLine :=
  uniqByShaLoop [] xs

/-- Specification-side helper: deduplicate a list of hashes keeping the
first occurrence of each, continuing from an accumulator of hashes already
kept. -/
def dedupFold : List String → List String → List String
  | acc, [] => acc
  | acc, s :: rest => dedupFold (if s ∈ acc then acc else acc ++ [s]) rest

/-- Specification-side helper: the distinct hashes of a list, each at its
first occurrence, in order. -/
def firstDedup (xs : List String) : List String :=
  dedupFold [] xs

/-- The `uniqBy(...).forEach(l => commits.set(l.sha, blame.commits.get(l.sha)))`
loop of `getBlameForRange`. -/
def commitsFromLines (blame : IGitBlame) :
    List IGitBlameLine → CommitMap → CommitMap
  | [], acc => acc
  | l :: rest, acc =>
    commitsFromLines blame rest (mapSet acc l.sha (mapGetJS blame.commits l.sha))

/-- The `.then(blame => …)` continuation of `getBlameForRange`: return the
blame unchanged when it has no lines, otherwise slice the lines to the
inclusive line range and rebuild a commit map from the sliced lines. -/
def getBlameForRangePure (blame : IGitBlame) (r : Range) : IGitBlame :=
  if blame.lines.length = 0 then blame
  else
    let lines := arraySlice blame.lines r.start.line (r.endPos.line + 1)
    let commits := commitsFromLines blame (uniqBySha lines) []
    { commits := commits, lines := lines }

/-- `GitBlameProvider.getBlameForRange`. -/
def getBlameForRange (git : GitCollaborator) (s : ProviderState)
    (fileName : String) (r : Range) : BlamePromise × ProviderState :=
  let res := blameFile git s fileName
  (res.1.map (fun blame => getBlameForRangePure blame r), res.2)

/-- The record returned by `getBlameForShaRange`: in the source its `commit`
field has type `IGitBlameCommit` but holds `blame.commits.get(sha)`, which is
`undefined` for an unknown hash; hence `Option` here. -/
structure ShaRangeResult where
  commit : Option IGitBlameCommit
  lines : List IGitBlameLine
deriving DecidableEq

/-- The `.then(blame => …)` continuation of `getBlameForShaRange`: the commit
record looked up for the hash, and the sliced lines filtered to that hash. -/
def getBlameForShaRangePure (blame : IGitBlame) (sha : String) (r : Range) :
    ShaRangeResult :=
  { commit := mapGetJS blame.commits sha
    lines :=
      (arraySlice blame.lines r.start.line (r.endPos.line + 1)).filter
        (fun l => l.sha = sha) }

/-- `GitBlameProvider.getBlameForShaRange`. -/
def getBlameForShaRange (git : GitCollaborator) (s : ProviderState)
    (fileName : String) (sha : String) (r : Range) :
    Except String ShaRangeResult × ProviderState :=
  let res := blameFile git s fileName
  (res.1.map (fun blame => getBlameForShaRangePure blame sha r), res.2)

/-! ## Resource-identifier encoding and decoding

`toBlameUri` / `fromBlameUri` are stateless transforms.  The external layers
they delegate to — Node's `path` module, `moment` date formatting,
`JSON.stringify` / `JSON.parse` and `vscode.Uri` parsing — are collaborators
outside this repository; they are modelled structurally: the query payload
travels as the structured data that `JSON.stringify` would serialize (a
`vscode.Range` serializes to the array of its two endpoint positions, which
is why `fromBlameUri` indexes `data.range[0]` and `data.range[1]`). -/

/-- Modelled from the spec: `DocumentSchemes.GitBlame` (imported from
`./constants`, a file not under `src/`), the custom resource scheme name. -/
def gitBlameScheme : String := "gitblame"

/-- Modelled from the spec: the external `moment(date).format(...)`
collaborator; the formatted text is represented as a function of the stored
date string. -/
def momentFormat (date : String) : String := date

/-- Node `path.extname` (external collaborator), for the slash-separated,
suffix-normalized paths used here. -/
def extname (p : String) : String :=
  let base := (p.splitOn "/").getLastD ""
  let parts := base.splitOn "."
  match parts with
  | [] => ""
  | [_] => ""
  | _ =>
    if base.startsWith "." && parts.length == 2 then ""
    else "." ++ parts.getLastD ""

/-- Node `path.basename(p, ext)` (external collaborator): the last path
component, with the suffix `ext` stripped when it is a proper suffix. -/
def basename (p : String) (ext : String) : String :=
  let base := (p.splitOn "/").getLastD ""
  if ext != "" && base.endsWith ext && base != ext then
    base.dropRight ext.length
  else base

/-- Node `path.dirname` (external collaborator). -/
def dirname (p : String) : String :=
  let parts := p.splitOn "/"
  if parts.length ≤ 1 then "."
  else String.intercalate "/" (parts.dropLast)

/-- Node `path.join(a, b)` (external collaborator), without `.`/`..`
normalization, which the inputs used here do not contain. -/
def joinPath (a b : String) : String :=
  if a = "" then b
  else if a.endsWith "/" then a ++ b
  else a ++ "/" ++ b

/-- The `pad` helper of `toBlameUri`:
`n => ("0000000" + n).slice(-("" + commitCount).length)`. -/
def pad (commitCount : Nat) (n : Nat) : String :=
  let s := "0000000" ++ toString n
  s.drop (s.length - (toString commitCount).length)

/-- The query payload as `JSON.stringify` serializes it: the `range` field
is the serialized form of a `vscode.Range`, the array of its two endpoint
positions. -/
structure UriQueryData where
  fileName : String
  sha : String
  range : Position × Position
  index : Nat
deriving DecidableEq

/-- A `vscode.Uri` (external host type) as produced by `Uri.parse` on the
string `toBlameUri` builds: scheme, path text, and the query payload (kept
structured; `JSON.stringify` on the way in and `uri.query` + `JSON.parse`
on the way out are mutually inverse external transforms). -/
structure Uri where
  scheme : String
  path : String
  query : UriQueryData
deriving DecidableEq

/-- `IGitBlameUriData`, as reconstructed by `fromBlameUri`. -/
structure IGitBlameUriData where
  fileName : String
  sha : String
  range : Range
  index : Nat
deriving DecidableEq

/-- `GitBlameProvider.toBlameUri`. -/
def toBlameUri (repoPath : String) (commit : IGitBlameCommit) (r : Range)
    (index : Nat) (commitCount : Nat) : Uri :=
  let ext := extname commit.fileName
  let path :=
    dirname commit.fileName ++ "/" ++ commit.sha ++ ": " ++
      basename commit.fileName ext ++ ext
  let data : UriQueryData :=
    { fileName := joinPath repoPath commit.fileName
      sha := commit.sha
      range := (r.start, r.endPos)
      index := index }
  { scheme := gitBlameScheme
    path :=
      pad commitCount index ++ ". " ++ commit.author ++ ", " ++
        momentFormat commit.date ++ " - " ++ path
    query := data }

/-- `GitBlameProvider.fromBlameUri`: parse the query payload and rebuild the
range with `new Range(range[0].line, range[0].character, range[1].line,
range[1].character)`. -/
def fromBlameUri (uri : Uri) : IGitBlameUriData :=
  { fileName := uri.query.fileName
    sha := uri.query.sha
    range :=
      { start := { line := uri.query.range.1.line
                   character := uri.query.range.1.character }
        endPos := { line := uri.query.range.2.line
                    character := uri.query.range.2.character } }
    index := uri.query.index }

/-! ## Concrete evaluation fixtures

Sample matches, collaborators and states on which the theorems below are
evaluated at concrete inputs. -/

/-- A sample matched line: hash `aaaaaaaa`, line 1. -/
def mA : RegexMatch :=
  { sha := "aaaaaaaa", fileName := "src/app.ts", originalLineNum := 1
    author := "Alice", dateStr := "2016-09-01 10:00:00 -0700"
    lineNum := 1, code := " let x = 1;" }

/-- A second matched line bearing the hash `aaaaaaaa`, line 2: its commit
data is discarded because the hash was already seen. -/
def mA2 : RegexMatch :=
  { sha := "aaaaaaaa", fileName := "src/app.ts", originalLineNum := 2
    author := "Alice 2nd", dateStr := "2016-09-03 10:00:00 -0700"
    lineNum := 2, code := " let y = 2;" }

/-- A sample matched line: hash `bbbbbbbb`, line 3. -/
def mB : RegexMatch :=
  { sha := "bbbbbbbb", fileName := "src/app.ts", originalLineNum := 3
    author := "Bob", dateStr := "2016-09-02 11:00:00 -0700"
    lineNum := 3, code := " let z = 3;" }

/-- A sample match list: hash `aaaaaaaa` twice, then `bbbbbbbb`. -/
def msW : List RegexMatch := [mA, mA2, mB]

/-- A collaborator that always succeeds with `msW`. -/
def gitW : GitCollaborator := fun _ => Except.ok msW

/-- A collaborator whose retrieval always fails. -/
def gitFailW : GitCollaborator :=
  fun _ => Except.error "fatal: not a git repository"

/-- The empty provider state. -/
def s0 : ProviderState := { files := [], calls := [] }

/-- A sample range covering lines 1 to 2 inclusive. -/
def rW : Range :=
  { start := { line := 1, character := 0 }
    endPos := { line := 2, character := 0 } }

/-- The blame result parsed from `msW`. -/
def blameW : IGitBlame := parseBlame msW

/-! ## Map lemmas -/

theorem mapHas_eq_isSome {α : Type} (m : List (String × α)) (k : String) :
    mapHas m k = (mapGet m k).isSome := by
  induction m with
  | nil => rfl
  | cons p rest ih =>
    by_cases h : p.1 = k
    · simp [mapHas, mapGet, h]
    · simpa [mapHas, mapGet, h] using ih

theorem mapHas_iff_mem_keys {α : Type} (m : List (String × α)) (k : String) :
    mapHas m k = true ↔ k ∈ m.map Prod.fst := by
  simp only [mapHas, List.any_eq_true, List.mem_map, decide_eq_true_eq]

theorem mapGet_eq_none_of_not_has {α : Type} {m : List (String × α)}
    {k : String} (h : mapHas m k = false) : mapGet m k = none := by
  have := mapHas_eq_isSome m k
  rw [h] at this
  exact Option.not_isSome_iff_eq_none.mp (by simp [← this])

theorem mapGet_set_self {α : Type} (m : List (String × α)) (k : String)
    (v : α) : mapGet (mapSet m k v) k = some v := by
  induction m with
  | nil => simp [mapSet, mapGet]
  | cons p rest ih =>
    by_cases h : p.1 = k
    · simp [mapSet, mapGet, h]
    · simpa [mapSet, mapGet, h] using ih

theorem mapGet_set_ne {α : Type} (m : List (String × α)) {k k' : String}
    (v : α) (h : k' ≠ k) : mapGet (mapSet m k v) k' = mapGet m k' := by
  have hkk : ¬(k = k') := fun he => h he.symm
  induction m with
  | nil => simp [mapSet, mapGet, hkk]
  | cons p rest ih =>
    by_cases hp : p.1 = k
    · have hp' : ¬(p.1 = k') := by rw [hp]; exact hkk
      simp [mapSet, mapGet, hp, hp', hkk]
    · by_cases hp' : p.1 = k'
      · simp [mapSet, mapGet, hp, hp', h]
      · simpa [mapSet, mapGet, hp, hp'] using ih

theorem keys_set_of_has {α : Type} {m : List (String × α)} {k : String}
    (v : α) (h : mapHas m k = true) :
    (mapSet m k v).map Prod.fst = m.map Prod.fst := by
  induction m with
  | nil => simp [mapHas] at h
  | cons p rest ih =>
    by_cases hp : p.1 = k
    · simp [mapSet, hp]
    · have h' : mapHas rest k = true := by
        simpa [mapHas, hp] using h
      simpa [mapSet, hp] using ih h'

theorem keys_set_of_not_has {α : Type} {m : List (String × α)} {k : String}
    (v : α) (h : mapHas m k = false) :
    (mapSet m k v).map Prod.fst = m.map Prod.fst ++ [k] := by
  induction m with
  | nil => simp [mapSet]
  | cons p rest ih =>
    by_cases hp : p.1 = k
    · simp [mapHas, hp] at h
    · have h' : mapHas rest k = false := by
        simpa [mapHas, hp] using h
      simpa [mapSet, hp] using ih h'

theorem mapDelete_cons {α : Type} (p : String × α) (rest : List (String × α))
    (k : String) :
    mapDelete (p :: rest) k =
      if p.1 = k then mapDelete rest k else p :: mapDelete rest k := by
  by_cases hp : p.1 = k <;> simp [mapDelete, List.filter_cons, hp]

theorem mapGet_delete_self {α : Type} (m : List (String × α)) (k : String) :
    mapGet (mapDelete m k) k = none := by
  induction m with
  | nil => rfl
  | cons p rest ih =>
    rw [mapDelete_cons]
    by_cases h : p.1 = k
    · simpa [h] using ih
    · simpa [h, mapGet] using ih

theorem mapGet_delete_ne {α : Type} (m : List (String × α)) {k k' : String}
    (h : k' ≠ k) : mapGet (mapDelete m k) k' = mapGet m k' := by
  have hkk : ¬(k = k') := fun he => h he.symm
  induction m with
  | nil => rfl
  | cons p rest ih =>
    rw [mapDelete_cons]
    by_cases hp : p.1 = k
    · have hp' : ¬(p.1 = k') := by
        rw [hp]; exact hkk
      simpa [hp, mapGet, hp', hkk] using ih
    · by_cases hp' : p.1 = k'
      · simp [hp, mapGet, hp', h]
      · simpa [hp, mapGet, hp'] using ih

theorem mapDelete_of_not_has {α : Type} {m : List (String × α)} {k : String}
    (h : mapHas m k = false) : mapDelete m k = m := by
  induction m with
  | nil => rfl
  | cons p rest ih =>
    by_cases hp : p.1 = k
    · simp [mapHas, hp] at h
    · have h' : mapHas rest k = false := by
        simpa [mapHas, hp] using h
      rw [mapDelete_cons]
      simpa [hp] using ih h'

/-! ## Parse-loop lemmas -/

theorem parseLoop_lines (ms : List RegexMatch) :
    ∀ (c : CommitMap) (l : List IGitBlameLine),
      (parseLoop ms c l).2 = l ++ ms.map lineOf := by
  induction ms with
  | nil => intro c l; simp [parseLoop]
  | cons m rest ih =>
    intro c l
    simp only [parseLoop]
    rw [ih]
    simp

theorem parseLoop_get_of_has (ms : List RegexMatch) :
    ∀ (c : CommitMap) (l : List IGitBlameLine) (hsh : String),
      mapHas c hsh = true →
      mapGet (parseLoop ms c l).1 hsh = mapGet c hsh := by
  induction ms with
  | nil => intro c l hsh _; simp [parseLoop]
  | cons m rest ih =>
    intro c l hsh hh
    simp only [parseLoop]
    cases hm : mapHas c m.sha with
    | true =>
      simp only [hm, if_pos]
      exact ih c _ hsh hh
    | false =>
      have hne : hsh ≠ m.sha := by
        intro he; rw [he] at hh; rw [hh] at hm; exact Bool.noConfusion hm
      have h1 : mapGet (mapSet c m.sha (some (commitOf m))) hsh = mapGet c hsh :=
        mapGet_set_ne c _ hne
      have h2 : mapHas (mapSet c m.sha (some (commitOf m))) hsh = true := by
        rw [mapHas_eq_isSome, h1, ← mapHas_eq_isSome]; exact hh
      simp only [hm, Bool.false_eq_true, if_false]
      rw [ih _ _ hsh h2, h1]

theorem parseLoop_get_of_not_has (ms : List RegexMatch) :
    ∀ (c : CommitMap) (l : List IGitBlameLine) (hsh : String),
      mapHas c hsh = false →
      mapGet (parseLoop ms c l).1 hsh =
        (ms.find? (fun m => m.sha == hsh)).map (fun m => some (commitOf m)) := by
  induction ms with
  | nil =>
    intro c l hsh hh
    simp [parseLoop, mapGet_eq_none_of_not_has hh]
  | cons m rest ih =>
    intro c l hsh hh
    simp only [parseLoop]
    by_cases hsm : m.sha = hsh
    · subst hsm
      rw [hh]
      simp only [Bool.false_eq_true, if_false]
      have h1 : mapGet (mapSet c m.sha (some (commitOf m))) m.sha =
          some (some (commitOf m)) := mapGet_set_self c m.sha _
      have h2 : mapHas (mapSet c m.sha (some (commitOf m))) m.sha = true := by
        rw [mapHas_eq_isSome, h1]; rfl
      rw [parseLoop_get_of_has rest _ _ m.sha h2, h1]
      simp [List.find?]
    · have hfind :
          ((m :: rest).find? (fun x => x.sha == hsh)) =
            rest.find? (fun x => x.sha == hsh) :=
        List.find?_cons_of_neg _ (by simp [hsm])
      rw [hfind]
      cases hm : mapHas c m.sha with
      | true =>
        simp only [hm, if_pos]
        exact ih c _ hsh hh
      | false =>
        simp only [hm, Bool.false_eq_true, if_false]
        have hne : hsh ≠ m.sha := fun he => hsm he.symm
        have h1 : mapGet (mapSet c m.sha (some (commitOf m))) hsh = mapGet c hsh :=
          mapGet_set_ne c _ hne
        have h2 : mapHas (mapSet c m.sha (some (commitOf m))) hsh = false := by
          rw [mapHas_eq_isSome, h1, ← mapHas_eq_isSome]; exact hh
        exact ih _ _ hsh h2

theorem parseLoop_keys_nodup (ms : List RegexMatch) :
    ∀ (c : CommitMap) (l : List IGitBlameLine),
      (c.map Prod.fst).Nodup → ((parseLoop ms c l).1.map Prod.fst).Nodup := by
  induction ms with
  | nil => intro c l hc; simpa [parseLoop] using hc
  | cons m rest ih =>
    intro c l hc
    simp only [parseLoop]
    cases hm : mapHas c m.sha with
    | true =>
      simp only [hm, if_pos]
      exact ih c _ hc
    | false =>
      simp only [hm, Bool.false_eq_true, if_false]
      refine ih _ _ ?_
      rw [keys_set_of_not_has _ hm]
      have hnm : m.sha ∉ c.map Prod.fst := by
        intro hmem
        rw [(mapHas_iff_mem_keys c m.sha).mpr hmem] at hm
        exact Bool.noConfusion hm
      simp [List.nodup_append, hc, hnm]

/-! ## Deduplication and slice lemmas -/

theorem dedupFold_nodup (xs : List String) :
    ∀ acc : List String, acc.Nodup → (dedupFold acc xs).Nodup := by
  induction xs with
  | nil => intro acc hacc; simpa [dedupFold] using hacc
  | cons s rest ih =>
    intro acc hacc
    simp only [dedupFold]
    by_cases hmem : s ∈ acc
    · simpa [hmem] using ih acc hacc
    · rw [if_neg hmem]
      exact ih (acc ++ [s]) (by simp [List.nodup_append, hacc, hmem])

theorem mem_dedupFold (xs : List String) :
    ∀ (acc : List String) (h : String),
      h ∈ dedupFold acc xs ↔ h ∈ acc ∨ h ∈ xs := by
  induction xs with
  | nil => intro acc h; simp [dedupFold]
  | cons s rest ih =>
    intro acc h
    simp only [dedupFold]
    by_cases hmem : s ∈ acc
    · rw [if_pos hmem, ih]
      constructor
      · rintro (ha | hr)
        · exact Or.inl ha
        · exact Or.inr (List.mem_cons_of_mem s hr)
      · rintro (ha | hsr)
        · exact Or.inl ha
        · rcases List.mem_cons.mp hsr with he | hr
          · exact Or.inl (he ▸ hmem)
          · exact Or.inr hr
    · rw [if_neg hmem, ih]
      simp only [List.mem_append, List.mem_singleton, List.mem_cons]
      tauto

theorem dedupFold_of_nodup (xs : List String) :
    ∀ acc : List String, (∀ x ∈ xs, x ∉ acc) → xs.Nodup →
      dedupFold acc xs = acc ++ xs := by
  induction xs with
  | nil => intro acc _ _; simp [dedupFold]
  | cons s rest ih =>
    intro acc hdisj hnd
    have hs : s ∉ acc := hdisj s (List.mem_cons_self s rest)
    simp only [dedupFold, if_neg hs]
    rw [ih (acc ++ [s]) ?_ (List.Nodup.of_cons hnd)]
    · simp
    · intro x hx
      simp only [List.mem_append, List.mem_singleton]
      rintro (hxa | hxs)
      · exact hdisj x (List.mem_cons_of_mem s hx) hxa
      · subst hxs
        exact (List.nodup_cons.mp hnd).1 hx

theorem firstDedup_nodup (xs : List String) : (firstDedup xs).Nodup :=
  dedupFold_nodup xs [] List.nodup_nil

theorem mem_firstDedup (xs : List String) (h : String) :
    h ∈ firstDedup xs ↔ h ∈ xs := by
  rw [firstDedup, mem_dedupFold]
  simp

theorem dedupFold_firstDedup (xs : List String) :
    dedupFold [] (firstDedup xs) = firstDedup xs := by
  rw [dedupFold_of_nodup (firstDedup xs) [] (by simp) (firstDedup_nodup xs)]
  simp

theorem uniqByShaLoop_map_sha (xs : List IGitBlameLine) :
    ∀ acc : List IGitBlameLine,
      (uniqByShaLoop acc xs).map IGitBlameLine.sha =
        dedupFold (acc.map IGitBlameLine.sha) (xs.map IGitBlameLine.sha) := by
  induction xs with
  | nil => intro acc; simp [uniqByShaLoop, dedupFold]
  | cons l rest ih =>
    intro acc
    simp only [uniqByShaLoop, List.map_cons, dedupFold]
    by_cases hmem : l.sha ∈ acc.map IGitBlameLine.sha
    · have hany : acc.any (fun x => x.sha = l.sha) = true := by
        rcases List.mem_map.mp hmem with ⟨x, hx, he⟩
        exact List.any_eq_true.mpr ⟨x, hx, by simp [he]⟩
      rw [if_pos hmem, hany, if_pos rfl]
      exact ih acc
    · have hany : acc.any (fun x => x.sha = l.sha) = false := by
        rw [Bool.eq_false_iff]
        intro hab
        rcases List.any_eq_true.mp hab with ⟨x, hx, he⟩
        exact hmem (List.mem_map.mpr ⟨x, hx, by simpa using he⟩)
      rw [if_neg hmem, hany]
      simp only [Bool.false_eq_true, if_false]
      rw [ih (acc ++ [l])]
      simp

theorem uniqBySha_map_sha (xs : List IGitBlameLine) :
    (uniqBySha xs).map IGitBlameLine.sha =
      firstDedup (xs.map IGitBlameLine.sha) := by
  simpa [uniqBySha, firstDedup] using uniqByShaLoop_map_sha xs []

theorem commitsFromLines_keys (blame : IGitBlame) (xs : List IGitBlameLine) :
    ∀ acc : CommitMap,
      (commitsFromLines blame xs acc).map Prod.fst =
        dedupFold (acc.map Prod.fst) (xs.map IGitBlameLine.sha) := by
  induction xs with
  | nil => intro acc; simp [commitsFromLines, dedupFold]
  | cons l rest ih =>
    intro acc
    simp only [commitsFromLines, List.map_cons, dedupFold]
    by_cases hmem : l.sha ∈ acc.map Prod.fst
    · have hhas : mapHas acc l.sha = true := (mapHas_iff_mem_keys acc l.sha).mpr hmem
      rw [if_pos hmem, ih, keys_set_of_has _ hhas]
    · have hhas : mapHas acc l.sha = false := by
        rw [Bool.eq_false_iff]
        intro hab
        exact hmem ((mapHas_iff_mem_keys acc l.sha).mp hab)
      rw [if_neg hmem, ih, keys_set_of_not_has _ hhas]

theorem getBlameForRangePure_keys (blame : IGitBlame) (r : Range)
    (hne : blame.lines.length ≠ 0) :
    (getBlameForRangePure blame r).commits.map Prod.fst =
      firstDedup
        ((arraySlice blame.lines r.start.line (r.endPos.line + 1)).map
          IGitBlameLine.sha) := by
  simp only [getBlameForRangePure, if_neg hne]
  rw [commitsFromLines_keys]
  simp only [List.map_nil]
  rw [uniqBySha_map_sha]
  exact dedupFold_firstDedup _

/-! ## Parse-result and slice bridge lemmas -/

theorem parseBlame_lines (ms : List RegexMatch) :
    (parseBlame ms).lines = ms.map lineOf := by
  simpa [parseBlame] using parseLoop_lines ms [] []

theorem parseBlame_keys_nodup (ms : List RegexMatch) :
    ((parseBlame ms).commits.map Prod.fst).Nodup :=
  parseLoop_keys_nodup ms [] [] (by simp)

theorem parseBlame_get (ms : List RegexMatch) (hsh : String) :
    mapGet (parseBlame ms).commits hsh =
      (ms.find? (fun m => m.sha == hsh)).map (fun m => some (commitOf m)) := by
  simpa [parseBlame] using parseLoop_get_of_not_has ms [] [] hsh rfl

theorem parseBlame_has_iff (ms : List RegexMatch) (hsh : String) :
    mapHas (parseBlame ms).commits hsh = true ↔
      hsh ∈ ms.map RegexMatch.sha := by
  rw [mapHas_eq_isSome, parseBlame_get]
  cases hfind : ms.find? (fun m => m.sha == hsh) with
  | none =>
    simp only [hfind, Option.map_none', Option.isSome_none]
    constructor
    · intro h
      exact absurd h (by simp)
    · intro hmem
      rcases List.mem_map.mp hmem with ⟨m, hm, he⟩
      have hnone := List.find?_eq_none.mp hfind m hm
      simp [he] at hnone
  | some m =>
    simp only [hfind, Option.map_some', Option.isSome_some]
    constructor
    · intro _
      have h1 := List.find?_some hfind
      have h2 := List.mem_of_find?_eq_some hfind
      exact List.mem_map.mpr ⟨m, h2, by simpa using h1⟩
    · intro _
      trivial

theorem parseBlame_getJS (ms : List RegexMatch) (hsh : String) :
    mapGetJS (parseBlame ms).commits hsh =
      (ms.find? (fun m => m.sha == hsh)).map commitOf := by
  cases hfind : ms.find? (fun m => m.sha == hsh) with
  | none => simp [mapGetJS, parseBlame_get, hfind]
  | some m => simp [mapGetJS, parseBlame_get, hfind]

theorem parseBlame_of_lines_nil (ms : List RegexMatch)
    (h : (parseBlame ms).lines = []) : ms = [] := by
  rw [parseBlame_lines] at h
  exact List.map_eq_nil_iff.mp h

theorem arraySlice_length {α : Type} (xs : List α) (b e : Nat) :
    (arraySlice xs b e).length = min e xs.length - b := by
  simp [arraySlice]

theorem arraySlice_get {α : Type} (xs : List α) (b e i : Nat)
    (hi : i < (arraySlice xs b e).length) (hb : b + i < xs.length) :
    (arraySlice xs b e).get ⟨i, hi⟩ = xs.get ⟨b + i, hb⟩ := by
  simp only [arraySlice] at hi ⊢
  rw [List.get_eq_getElem, List.get_eq_getElem, List.getElem_drop,
    List.getElem_take]


theorem getBlameForRangePure_lines (blame : IGitBlame) (r : Range)
    (hne : blame.lines.length ≠ 0) :
    (getBlameForRangePure blame r).lines =
      arraySlice blame.lines r.start.line (r.endPos.line + 1) := by
  simp [getBlameForRangePure, hne]

theorem getBlameForRangePure_get (blame : IGitBlame) (r : Range) (i : Nat)
    (hne : blame.lines.length ≠ 0)
    (hi : i < (getBlameForRangePure blame r).lines.length)
    (hb : r.start.line + i < blame.lines.length) :
    (getBlameForRangePure blame r).lines.get ⟨i, hi⟩ =
      blame.lines.get ⟨r.start.line + i, hb⟩ := by
  have hlines := getBlameForRangePure_lines blame r hne
  have hi' : i <
      (arraySlice blame.lines r.start.line (r.endPos.line + 1)).length := by
    rw [← hlines]; exact hi
  have hcast :
      (getBlameForRangePure blame r).lines.get ⟨i, hi⟩ =
        (arraySlice blame.lines r.start.line (r.endPos.line + 1)).get
          ⟨i, hi'⟩ := by
    congr 1
    · exact (Fin.heq_ext_iff (by rw [hlines])).mpr rfl
  rw [hcast]
  exact arraySlice_get blame.lines r.start.line (r.endPos.line + 1) i hi' hb

/-! ## Claim theorems -/

/-- C1: On a cache miss, `blameFile` parses every match of the attribution
pattern and resolves with `parseBlame ms`: the line sequence has exactly one
record per matched line, in match order, and the commit map has exactly one
commit record per distinct hash seen (no duplicate keys; a key exactly for
the hashes seen; the record taken from the first matched line bearing that
hash). -/
theorem blameFile_cache_miss_parses (git : GitCollaborator)
    (s : ProviderState) (f : String) (ms : List RegexMatch) (hsh : String)
    (hmiss : mapGet s.files f = none) (hgit : git f = Except.ok ms) :
    (blameFile git s f).1 = Except.ok (parseBlame ms) ∧
    (parseBlame ms).lines = ms.map lineOf ∧
    ((parseBlame ms).commits.map Prod.fst).Nodup ∧
    (mapHas (parseBlame ms).commits hsh = true ↔
      hsh ∈ ms.map RegexMatch.sha) ∧
    mapGetJS (parseBlame ms).commits hsh =
      (ms.find? (fun m => m.sha == hsh)).map commitOf := by
  refine ⟨?_, parseBlame_lines ms, parseBlame_keys_nodup ms,
    parseBlame_has_iff ms hsh, parseBlame_getJS ms hsh⟩
  simp [blameFile, hmiss, hgit, Except.map]

theorem blameFile_cache_miss_parses_witness :
    mapGet s0.files "a.ts" = none ∧ gitW "a.ts" = Except.ok msW ∧
    ((blameFile gitW s0 "a.ts").1 = Except.ok (parseBlame msW) ∧
     (parseBlame msW).lines = msW.map lineOf ∧
     ((parseBlame msW).commits.map Prod.fst).Nodup ∧
     (mapHas (parseBlame msW).commits "aaaaaaaa" = true ↔
       "aaaaaaaa" ∈ msW.map RegexMatch.sha) ∧
     mapGetJS (parseBlame msW).commits "aaaaaaaa" =
       (msW.find? (fun m => m.sha == "aaaaaaaa")).map commitOf) :=
  ⟨rfl, rfl,
    blameFile_cache_miss_parses gitW s0 "a.ts" msW "aaaaaaaa" rfl rfl⟩

/-- C2: Calling `blameFile` a second time for the same file identifier,
while the cache entry has not been invalidated, returns the same cached
computation and leaves the state — in particular the log of collaborator
invocations — unchanged: the collaborator is not re-invoked. -/
theorem blameFile_memoized (git : GitCollaborator) (s : ProviderState)
    (f : String) :
    blameFile git (blameFile git s f).2 f = blameFile git s f ∧
    (blameFile git (blameFile git s f).2 f).2.calls =
      (blameFile git s f).2.calls := by
  have hmain : blameFile git (blameFile git s f).2 f = blameFile git s f := by
    cases hget : mapGet s.files f with
    | some b => simp [blameFile, hget]
    | none => simp [blameFile, hget, mapGet_set_self]
  exact ⟨hmain, by rw [hmain]⟩

/-- C3: Invalidation (`_removeFile`, triggered by the document-closed and
document-changed notifications) removes the file's cache entry
unconditionally, is a no-op when no entry is present, leaves entries of
other files untouched, and makes the next `blameFile` call for the file
re-invoke the external collaborator (one new invocation is logged and its
outcome is parsed afresh). -/
theorem removeFile_invalidation (git : GitCollaborator) (s : ProviderState)
    (f g : String) (hg : (g == f) = false) :
    mapGet (removeFile s f).files f = none ∧
    (mapHas s.files f = false → removeFile s f = s) ∧
    mapGet (removeFile s f).files g = mapGet s.files g ∧
    (blameFile git (removeFile s f) f).1 = (git f).map parseBlame ∧
    (blameFile git (removeFile s f) f).2.calls = s.calls ++ [f] := by
  have hgne : g ≠ f := by simpa using hg
  have hnone : mapGet (removeFile s f).files f = none :=
    mapGet_delete_self s.files f
  refine ⟨mapGet_delete_self s.files f, ?_,
    mapGet_delete_ne s.files hgne, ?_, ?_⟩
  · intro habs
    simp [removeFile, mapDelete_of_not_has habs]
  · simp [blameFile, hnone]
  · have hnone' : mapGet (mapDelete s.files f) f = none :=
      mapGet_delete_self s.files f
    simp [blameFile, removeFile, hnone']

theorem removeFile_invalidation_witness :
    (("b.ts" : String) == "a.ts") = false ∧
    mapGet (removeFile (blameFile gitW s0 "a.ts").2 "a.ts").files "a.ts" =
      none ∧
    (blameFile gitW (removeFile (blameFile gitW s0 "a.ts").2 "a.ts")
        "a.ts").2.calls =
      (blameFile gitW s0 "a.ts").2.calls ++ ["a.ts"] :=
  ⟨by decide,
    (removeFile_invalidation gitW (blameFile gitW s0 "a.ts").2 "a.ts" "b.ts"
      (by decide)).1,
    (removeFile_invalidation gitW (blameFile gitW s0 "a.ts").2 "a.ts" "b.ts"
      (by decide)).2.2.2.2⟩

/-- C4: For a blame result with a non-empty line sequence, `getBlameForRange`
returns the line records from the range's start line through its end line
inclusive (the slice `[start.line, end.line + 1)`, clamped to the file: its
length and each of its elements are those of the original sequence shifted
by the start line), together with a commit map whose keys are exactly the
hashes occurring among the sliced lines, deduplicated preserving the first
occurrence per hash within the slice. -/
theorem getBlameForRange_slice (blame : IGitBlame) (r : Range) (i : Nat)
    (hne : blame.lines ≠ [])
    (hi : i < (getBlameForRangePure blame r).lines.length)
    (hb : r.start.line + i < blame.lines.length) :
    (getBlameForRangePure blame r).lines.length =
      min (r.endPos.line + 1) blame.lines.length - r.start.line ∧
    (getBlameForRangePure blame r).lines.get ⟨i, hi⟩ =
      blame.lines.get ⟨r.start.line + i, hb⟩ ∧
    (getBlameForRangePure blame r).commits.map Prod.fst =
      firstDedup
        ((getBlameForRangePure blame r).lines.map IGitBlameLine.sha) := by
  have hlen : blame.lines.length ≠ 0 := by
    simpa [List.length_eq_zero] using hne
  refine ⟨?_, getBlameForRangePure_get blame r i hlen hi hb, ?_⟩
  · rw [getBlameForRangePure_lines blame r hlen, arraySlice_length]
  · rw [getBlameForRangePure_keys blame r hlen,
      getBlameForRangePure_lines blame r hlen]

theorem getBlameForRange_slice_witness :
    blameW.lines ≠ [] ∧
    0 < (getBlameForRangePure blameW rW).lines.length ∧
    rW.start.line + 0 < blameW.lines.length ∧
    ((getBlameForRangePure blameW rW).lines.length =
      min (rW.endPos.line + 1) blameW.lines.length - rW.start.line) ∧
    ((getBlameForRangePure blameW rW).lines.get ⟨0, by decide⟩ =
      blameW.lines.get ⟨rW.start.line + 0, by decide⟩) ∧
    ((getBlameForRangePure blameW rW).commits.map Prod.fst =
      firstDedup
        ((getBlameForRangePure blameW rW).lines.map IGitBlameLine.sha)) :=
  ⟨by decide, by decide, by decide,
    (getBlameForRange_slice blameW rW 0 (by decide) (by decide) (by decide)).1,
    (getBlameForRange_slice blameW rW 0 (by decide) (by decide)
      (by decide)).2.1,
    (getBlameForRange_slice blameW rW 0 (by decide) (by decide)
      (by decide)).2.2⟩

/-- C5: `getBlameForShaRange` returns the commit record looked up for the
given hash together with exactly those lines of the inclusive range slice
whose hash equals the given hash; for a hash absent from the commit map the
commit record is absent (`undefined` in the source) rather than an error. -/
theorem getBlameForShaRange_filter (blame : IGitBlame) (sha : String)
    (r : Range) (l : IGitBlameLine) :
    (getBlameForShaRangePure blame sha r).commit =
      mapGetJS blame.commits sha ∧
    (mapHas blame.commits sha = false →
      (getBlameForShaRangePure blame sha r).commit = none) ∧
    (l ∈ (getBlameForShaRangePure blame sha r).lines ↔
      l ∈ arraySlice blame.lines r.start.line (r.endPos.line + 1) ∧
        l.sha = sha) := by
  refine ⟨rfl, ?_, ?_⟩
  · intro hhas
    have hget : mapGet blame.commits sha = none :=
      mapGet_eq_none_of_not_has hhas
    simp [getBlameForShaRangePure, mapGetJS, hget]
  · simp [getBlameForShaRangePure, List.mem_filter]

theorem getBlameForShaRange_filter_witness :
    mapHas blameW.commits "cccccccc" = false ∧
    (getBlameForShaRangePure blameW "cccccccc" rW).commit = none ∧
    ((lineOf mA2) ∈ (getBlameForShaRangePure blameW "aaaaaaaa" rW).lines ↔
      (lineOf mA2) ∈ arraySlice blameW.lines rW.start.line
          (rW.endPos.line + 1) ∧
        (lineOf mA2).sha = "aaaaaaaa") :=
  ⟨by decide,
    (getBlameForShaRange_filter blameW "cccccccc" rW (lineOf mA2)).2.1
      (by decide),
    (getBlameForShaRange_filter blameW "aaaaaaaa" rW (lineOf mA2)).2.2⟩

/-- C6: When the collaborator's retrieval fails on a cache miss, the cached
computation fails with that error; the failed entry is stored in the cache,
a repeated `blameFile` call returns the same failure without touching the
state (every current and future awaiter observes the same failure), and the
entry stays cached until invalidation removes it. -/
theorem blameFile_failure_cached (git : GitCollaborator) (s : ProviderState)
    (f e : String) (hmiss : mapGet s.files f = none)
    (hgit : git f = Except.error e) :
    (blameFile git s f).1 = Except.error e ∧
    mapGet (blameFile git s f).2.files f = some (Except.error e) ∧
    blameFile git (blameFile git s f).2 f =
      (Except.error e, (blameFile git s f).2) ∧
    mapGet (removeFile (blameFile git s f).2 f).files f = none := by
  have h1 : blameFile git s f =
      (Except.error e,
        { files := mapSet s.files f (Except.error e)
          calls := s.calls ++ [f] }) := by
    simp [blameFile, hmiss, hgit, Except.map]
  rw [h1]
  refine ⟨rfl, ?_, ?_, ?_⟩
  · exact mapGet_set_self s.files f _
  · simp [blameFile, mapGet_set_self]
  · simp [removeFile, mapGet_delete_self]

theorem blameFile_failure_cached_witness :
    mapGet s0.files "a.ts" = none ∧
    gitFailW "a.ts" = Except.error "fatal: not a git repository" ∧
    (blameFile gitFailW s0 "a.ts").1 =
      Except.error "fatal: not a git repository" ∧
    mapGet (blameFile gitFailW s0 "a.ts").2.files "a.ts" =
      some (Except.error "fatal: not a git repository") ∧
    blameFile gitFailW (blameFile gitFailW s0 "a.ts").2 "a.ts" =
      (Except.error "fatal: not a git repository",
        (blameFile gitFailW s0 "a.ts").2) ∧
    mapGet (removeFile (blameFile gitFailW s0 "a.ts").2 "a.ts").files
        "a.ts" = none :=
  ⟨rfl, rfl,
    (blameFile_failure_cached gitFailW s0 "a.ts"
      "fatal: not a git repository" rfl rfl).1,
    (blameFile_failure_cached gitFailW s0 "a.ts"
      "fatal: not a git repository" rfl rfl).2.1,
    (blameFile_failure_cached gitFailW s0 "a.ts"
      "fatal: not a git repository" rfl rfl).2.2.1,
    (blameFile_failure_cached gitFailW s0 "a.ts"
      "fatal: not a git repository" rfl rfl).2.2.2⟩

/-- C7: Every matched line yields a line record carrying that line's hash
and its two 1-based numbers converted to 0-based (each parsed value minus
one); the hash is resolved in the commit map to the record built from the
first matched line bearing it (capturing that line's trimmed source file
path, trimmed author, and timestamp). -/
theorem parseBlame_line_conversion (ms : List RegexMatch) (i : Nat)
    (hm : i < ms.length) (hi : i < (parseBlame ms).lines.length) :
    ((parseBlame ms).lines.get ⟨i, hi⟩).sha = (ms.get ⟨i, hm⟩).sha ∧
    ((parseBlame ms).lines.get ⟨i, hi⟩).originalLine =
      ((ms.get ⟨i, hm⟩).originalLineNum : Int) - 1 ∧
    ((parseBlame ms).lines.get ⟨i, hi⟩).line =
      ((ms.get ⟨i, hm⟩).lineNum : Int) - 1 ∧
    mapGetJS (parseBlame ms).commits (ms.get ⟨i, hm⟩).sha =
      (ms.find? (fun m => m.sha == (ms.get ⟨i, hm⟩).sha)).map commitOf := by
  have hi' : i < (ms.map lineOf).length := by
    rw [← parseBlame_lines ms]; exact hi
  have hmain : (parseBlame ms).lines.get ⟨i, hi⟩ = lineOf (ms.get ⟨i, hm⟩) := by
    have hcast : (parseBlame ms).lines.get ⟨i, hi⟩ =
        (ms.map lineOf).get ⟨i, hi'⟩ := by
      congr 1
      · exact parseBlame_lines ms
      · exact (Fin.heq_ext_iff (by rw [parseBlame_lines ms])).mpr rfl
    rw [hcast, List.get_eq_getElem, List.getElem_map, List.get_eq_getElem]
  exact ⟨by rw [hmain]; rfl, by rw [hmain]; rfl, by rw [hmain]; rfl,
    parseBlame_getJS ms (ms.get ⟨i, hm⟩).sha⟩

theorem parseBlame_line_conversion_witness :
    1 < msW.length ∧ 1 < (parseBlame msW).lines.length ∧
    (((parseBlame msW).lines.get ⟨1, by decide⟩).sha =
      (msW.get ⟨1, by decide⟩).sha ∧
     ((parseBlame msW).lines.get ⟨1, by decide⟩).originalLine =
      ((msW.get ⟨1, by decide⟩).originalLineNum : Int) - 1 ∧
     ((parseBlame msW).lines.get ⟨1, by decide⟩).line =
      ((msW.get ⟨1, by decide⟩).lineNum : Int) - 1 ∧
     mapGetJS (parseBlame msW).commits (msW.get ⟨1, by decide⟩).sha =
      (msW.find? (fun m => m.sha == (msW.get ⟨1, by decide⟩).sha)).map
        commitOf) :=
  ⟨by decide, by decide,
    parseBlame_line_conversion msW 1 (by decide) (by decide)⟩

/-- C8: For a blame result with an empty line sequence (a file with zero
matched lines), `getBlameForRange` returns the full result unchanged for
every range, and that result has both an empty line sequence and an empty
commit map — no slicing error occurs. -/
theorem getBlameForRange_empty (ms : List RegexMatch) (r : Range)
    (h : (parseBlame ms).lines = []) :
    getBlameForRangePure (parseBlame ms) r = parseBlame ms ∧
    (parseBlame ms).commits = [] ∧
    (getBlameForRangePure (parseBlame ms) r).lines = [] ∧
    (getBlameForRangePure (parseBlame ms) r).commits = [] := by
  have hms : ms = [] := parseBlame_of_lines_nil ms h
  subst hms
  refine ⟨?_, rfl, ?_, ?_⟩ <;> rfl

theorem getBlameForRange_empty_witness :
    (parseBlame []).lines = [] ∧
    (getBlameForRangePure (parseBlame []) rW = parseBlame [] ∧
     (parseBlame []).commits = [] ∧
     (getBlameForRangePure (parseBlame []) rW).lines = [] ∧
     (getBlameForRangePure (parseBlame []) rW).commits = []) :=
  ⟨rfl, getBlameForRange_empty [] rW rfl⟩

/-- C9: Decoding with `fromBlameUri` the resource identifier produced by
`toBlameUri` recovers exactly what was encoded in the query payload: the
absolute file path (`join(repoPath, commit.fileName)`), the hash, the
range, and the index. -/
theorem blameUri_roundtrip (repoPath : String) (commit : IGitBlameCommit)
    (r : Range) (index commitCount : Nat) :
    fromBlameUri (toBlameUri repoPath commit r index commitCount) =
      { fileName := joinPath repoPath commit.fileName
        sha := commit.sha
        range := r
        index := index } := rfl

/-- C10: In every parse result and in every sliced result, the hash
referenced by each line record is present as a key of the accompanying
commit map. -/
theorem lines_sha_in_commits (ms : List RegexMatch) (blame : IGitBlame)
    (r : Range) :
    (∀ l ∈ (parseBlame ms).lines,
      mapHas (parseBlame ms).commits l.sha = true) ∧
    (∀ l ∈ (getBlameForRangePure blame r).lines,
      mapHas (getBlameForRangePure blame r).commits l.sha = true) := by
  constructor
  · intro l hl
    rw [parseBlame_lines] at hl
    rcases List.mem_map.mp hl with ⟨m, hmem, he⟩
    rw [parseBlame_has_iff]
    exact List.mem_map.mpr ⟨m, hmem, by rw [← he]; rfl⟩
  · intro l hl
    by_cases hlen : blame.lines.length = 0
    · simp only [getBlameForRangePure, if_pos hlen] at hl
      rw [List.length_eq_zero.mp hlen] at hl
      cases hl
    · have hlines := getBlameForRangePure_lines blame r hlen
      rw [mapHas_iff_mem_keys, getBlameForRangePure_keys blame r hlen,
        mem_firstDedup]
      rw [hlines] at hl
      exact List.mem_map.mpr ⟨l, hl, rfl⟩

theorem lines_sha_in_commits_witness :
    lineOf mA ∈ (parseBlame msW).lines ∧
    lineOf mB ∈ (getBlameForRangePure blameW rW).lines ∧
    mapHas (parseBlame msW).commits (lineOf mA).sha = true ∧
    mapHas (getBlameForRangePure blameW rW).commits (lineOf mB).sha = true :=
  ⟨by decide, by decide,
    (lines_sha_in_commits msW blameW rW).1 (lineOf mA) (by decide),
    (lines_sha_in_commits msW blameW rW).2 (lineOf mB) (by decide)⟩

end GitLens
